import Mathlib

set_option maxHeartbeats 1000000

/-!
Verification of the static-asset resolution and request-dispatch layer of
the repository's production HTTP server (server.js).

Paths are JS strings; we model them as Lean `String` and work on their
character lists.  The functions `normalize`, `pjoin` and `extname` below
reproduce the semantics of the Node.js posix path routines used by the
server, and `safeJoin`, `resolveStatic`, `handleError` and `dispatch` embed
the corresponding functions of server.js.  The filesystem is abstracted as
the stat metadata of every path (`Fs`) together with the outcome of
streaming a file (`ReadFs`).
-/

namespace TokenView

/-- Result of a `stat` call on a path: a regular file, a directory, or a
thrown error (missing path or permission failure). -/
inductive StatResult
  | file
  | dir
  | error
deriving DecidableEq

/-- The filesystem, abstracted as the stat metadata of every path. -/
def Fs := String → StatResult

/-- Split a character list into path components at every separator, the
component structure the Node posix normalize routine iterates over.
Empty components correspond to duplicate, leading or trailing slashes. -/
def splitComps : List Char → List (List Char)
  | [] => [[]]
  | c :: rest =>
    if c = '/' then [] :: splitComps rest
    else
      match splitComps rest with
      | [] => [[c]]
      | h :: t => (c :: h) :: t

/-- Rejoin path components with separator characters. -/
def joinComps : List (List Char) → List Char
  | [] => []
  | [c] => c
  | c :: d :: t => c ++ '/' :: joinComps (d :: t)

/-- One step of the Node `normalizeString` segment loop: skip empty and
`.` segments; on `..` pop the previous segment, or (only when
`allowAboveRoot` is set, i.e. for relative paths) accumulate the `..`;
otherwise push the segment. -/
def normStep (allowAboveRoot : Bool) (stack : List (List Char)) (c : List Char) :
    List (List Char) :=
  if c = [] ∨ c = ['.'] then stack
  else if c = ['.', '.'] then
    match stack with
    | [] => if allowAboveRoot then [c] else []
    | top :: rest =>
        if top = ['.', '.'] then (if allowAboveRoot then c :: top :: rest else top :: rest)
        else rest
  else c :: stack

/-- Reassemble the normalized component list exactly as the tail of the
Node `normalize` routine does, restoring the leading slash of absolute
paths and a single trailing slash when the input had one. -/
def assembleNorm (isAbs trail : Bool) (comps : List (List Char)) : List Char :=
  let body := joinComps comps
  if body = [] then
    if isAbs then ['/'] else if trail then ['.', '/'] else ['.']
  else
    let body2 := if trail then body ++ ['/'] else body
    if isAbs then '/' :: body2 else body2

/-- Node posix `path.normalize` on character lists: collapse `.`, `..`
and duplicate separators; `..` above the root of an absolute path is
dropped. -/
def normalizeChars (p : List Char) : List Char :=
  match p with
  | [] => ['.']
  | c :: rest =>
    let isAbs : Bool := c == '/'
    let trail : Bool := (c :: rest).getLast? == some '/'
    assembleNorm isAbs trail
      ((List.foldl (normStep !isAbs) [] (splitComps (c :: rest))).reverse)

/-- Node posix `path.normalize`. -/
def normalize (p : String) : String := ⟨normalizeChars p.data⟩

/-- Node posix `path.join` restricted to two arguments, as used by
`safeJoin`: concatenate the non-empty arguments with a separator and
normalize the result. -/
def pjoin (a b : String) : String :=
  if a.data = [] then (if b.data = [] then "." else normalize b)
  else if b.data = [] then normalize a
  else ⟨normalizeChars (a.data ++ '/' :: b.data)⟩

/-- The `.replace(/^\/+/, '')` step of `safeJoin`: strip every leading
separator. -/
def stripLeadingSlashes (s : String) : String :=
  ⟨s.data.dropWhile (fun c => c == '/')⟩

/-- The `.replace(/^\//, '')` step of `resolveStatic`: strip one leading
separator if present. -/
def stripOneSlash (s : String) : String :=
  match s.data with
  | '/' :: rest => ⟨rest⟩
  | _ => s

/-- JS `String.prototype.startsWith`. -/
def jsStartsWith (s pre : String) : Bool := pre.data.isPrefixOf s.data

/-- Node posix `path.extname`: the substring of the basename from its last
dot, except that a dot in the leading position of the basename (hidden
files) and the basename `..` yield the empty extension.  `rb` below is the
reversed basename, obtained by dropping trailing separators and taking up
to the previous separator. -/
def extname (p : String) : String :=
  let rb := (p.data.reverse.dropWhile (fun c => c == '/')).takeWhile (fun c => c != '/')
  if rb = ['.', '.'] then ""
  else
    match rb.dropWhile (fun c => c != '.') with
    | [] => ""
    | [_] => ""
    | _ => ⟨((rb.takeWhile (fun c => c != '.')) ++ ['.']).reverse⟩

/-- The `staticFiles` allow-list of server.js: bare filenames servable from
the root of the client directory. -/
def staticFiles : List String :=
  ["favicon.ico", "manifest.json", "robots.txt", "logo192.png", "logo512.png",
   "tanstack-circle-logo.png", "tanstack-word-logo-white.svg"]

/-- The `mimeMap` table of server.js (extension to content type). -/
def mimeMap : List (String × String) :=
  [(".html", "text/html"), (".js", "application/javascript"), (".css", "text/css"),
   (".json", "application/json"), (".ico", "image/x-icon"), (".png", "image/png"),
   (".svg", "image/svg+xml"), (".txt", "text/plain"), (".woff2", "font/woff2"),
   (".webp", "image/webp"), (".avif", "image/avif")]

/-- The filesystem path `safeJoin` builds for a candidate URL path:
normalize, strip leading separators, join onto the root. -/
def candidatePath (root pathname : String) : String :=
  pjoin root (stripLeadingSlashes (normalize pathname))

/-- `safeJoin` of server.js: build the candidate path and stat it; return
it only when it is a regular file, and swallow stat errors (the
`try ... catch` around `stat`) into a `none` result. -/
def safeJoin (fs : Fs) (root pathname : String) : Option String :=
  match fs (candidatePath root pathname) with
  | StatResult.file => some (candidatePath root pathname)
  | _ => none

/-- `resolveStatic` of server.js: a path with the `/assets/` prefix is a
candidate; otherwise the path with one leading slash stripped must match
the allow-list exactly; anything else yields no match. -/
def resolveStatic (fs : Fs) (root pathname : String) : Option String :=
  if jsStartsWith pathname "/assets/" then safeJoin fs root pathname
  else if stripOneSlash pathname ∈ staticFiles then safeJoin fs root pathname
  else none

/-- A chunk written to the outgoing response body: either a JS string (the
fixed error text) or raw file bytes. -/
inductive Chunk
  | str (s : String)
  | bytes (bs : List Nat)
deriving DecidableEq

/-- The mutable state of the Node `http.ServerResponse` that the dispatcher
touches: status code, headers, whether headers have been flushed to the
client, the body chunks written so far, whether `end` was called, plus a
count of `console.error` calls for observing the logging behavior. -/
structure ResState where
  statusCode : Nat := 200
  headers : List (String × String) := []
  headersSent : Bool := false
  chunks : List Chunk := []
  ended : Bool := false
  errorLogs : Nat := 0
deriving DecidableEq

/-- Node `res.setHeader`: replace any existing header of the same name. -/
def setHeader (hs : List (String × String)) (k v : String) :
    List (String × String) :=
  hs.filter (fun kv => kv.1 != k) ++ [(k, v)]

/-- `handleError` of server.js: log the error; if headers were not sent
yet, set status 500 and a plain-text content type; then
`res.end('Internal Server Error')`, which writes the fixed text as a final
chunk and terminates the body. -/
def handleError (res : ResState) : ResState :=
  let res1 := { res with errorLogs := res.errorLogs + 1 }
  let res2 :=
    if res1.headersSent then res1
    else { res1 with statusCode := 500,
                     headers := setHeader res1.headers "Content-Type" "text/plain" }
  { res2 with chunks := res2.chunks ++ [Chunk.str "Internal Server Error"],
              headersSent := true, ended := true }

/-- Outcome of streaming a file with `createReadStream(...).pipe(res)`:
either the whole contents, or an error after some prefix of the bytes was
already written (`failAfter []` is an error at open time, before headers
were flushed). -/
inductive ReadResult
  | ok (bs : List Nat)
  | failAfter (sent : List Nat)
deriving DecidableEq

/-- The read side of the filesystem: what streaming each path yields. -/
def ReadFs := String → ReadResult

/-- The static branch of the server callback after the headers were set:
pipe the file into the response; a stream error is routed to
`handleError` by the `.on(..., handleError)` registration, with headers
counting as sent exactly when some bytes were already written. -/
def streamFile (rd : ReadFs) (path : String) (res : ResState) : ResState :=
  match rd path with
  | ReadResult.ok bs =>
      { res with headersSent := true, chunks := res.chunks ++ [Chunk.bytes bs],
                 ended := true }
  | ReadResult.failAfter sent =>
      let res1 :=
        if sent = [] then res
        else { res with headersSent := true, chunks := res.chunks ++ [Chunk.bytes sent] }
      handleError res1

/-- The protocol-neutral request value the server callback builds for the
external handler (`new Request(...)`): method, URL and a body stream only
for methods other than GET and HEAD. -/
structure NeutralRequest where
  method : String
  url : String
  hasBody : Bool
deriving DecidableEq

/-- The protocol-neutral response the external handler contract promises. -/
structure HandlerResponse where
  status : Nat := 200
  rheaders : List (String × String) := []
  rbody : Option (List Nat) := none
deriving DecidableEq

/-- The external handler boundary (`handlerFetch` of server.js). -/
def HandlerFn := NeutralRequest → HandlerResponse

/-- The parts of the incoming HTTP request the dispatcher reads. -/
structure Req where
  method : String
  pathname : String
deriving DecidableEq

/-- The `createServer` callback of server.js, for a request whose URL
parsed successfully; `root` is the `clientDir` constant.  On a static
match, set status 200, the content type from `mimeMap` and the immutable
cache header, then stream the file.  Otherwise the code builds the
neutral request and evaluates `handler.fetch(request)` — but `handler` is
not a binding of the module (the bound function is `handlerFetch`, line
12), so this line throws a ReferenceError before the configured handler
`hf` can be invoked; the surrounding `try ... catch` routes the error to
`handleError` on a fresh response. -/
def dispatch (fs : Fs) (rd : ReadFs) (root : String) (hf : HandlerFn) (req : Req) :
    ResState :=
  match resolveStatic fs root req.pathname with
  | some staticPath =>
      streamFile rd staticPath
        { statusCode := 200,
          headers := setHeader
            (setHeader [] "Content-Type"
              ((mimeMap.lookup (extname staticPath)).getD "application/octet-stream"))
            "Cache-Control" "public, max-age=31536000, immutable" }
  | none =>
      let _nreq : NeutralRequest :=
        { method := req.method, url := req.pathname,
          hasBody := !(req.method == "GET" || req.method == "HEAD") }
      let _ := hf
      handleError {}

/-- A well-formed path component: non-empty, not a dot segment, and free
of separators. -/
def cleanComp (c : List Char) : Prop :=
  c ≠ [] ∧ c ≠ ['.'] ∧ c ≠ ['.', '.'] ∧ '/' ∉ c

instance (c : List Char) : Decidable (cleanComp c) := by
  unfold cleanComp; infer_instance

/-- `q` lies strictly inside the directory `root`: it is `root` followed by
a separator and a non-empty sequence of well-formed path components (no
empty, `.` or `..` segments), possibly with one trailing separator.  This
is the formal reading of "the returned path is a descendant of AssetRoot". -/
def isDescendantOf (q root : String) : Prop :=
  ∃ rel : List (List Char), rel ≠ [] ∧ (∀ c ∈ rel, cleanComp c) ∧
    (q.data = root.data ++ '/' :: joinComps rel ∨
     q.data = root.data ++ '/' :: (joinComps rel ++ ['/']))

-- Sanity checks of the path machinery against documented Node behavior.
example : normalize "/assets/../../etc/passwd" = "/etc/passwd" := by decide
example : normalize "/assets/app.js" = "/assets/app.js" := by decide
example : normalize "/a//b/./c/.." = "/a/b" := by decide
example : normalize "/.." = "/" := by decide
example : normalize "" = "." := by decide
example : normalize "a/.." = "." := by decide
example : normalize "../a" = "../a" := by decide
example : normalize "/assets/" = "/assets/" := by decide
example : pjoin "/srv" "etc/passwd" = "/srv/etc/passwd" := by decide
example : pjoin "/srv" "" = "/srv" := by decide
example : extname "/srv/assets/app.js" = ".js" := by decide
example : extname "/srv/.bashrc" = "" := by decide
example : extname "/srv/archive.tar.gz" = ".gz" := by decide
example : extname "abc." = "." := by decide
example : extname ".." = "" := by decide
example : extname "a.." = "." := by decide
example : extname "..a" = ".a" := by decide
example : extname "noext" = "" := by decide

example :
    resolveStatic (fun s => if s = "/srv/etc/passwd" then StatResult.file else StatResult.dir)
      "/srv" "/assets/../../etc/passwd" = some "/srv/etc/passwd" := by decide

example :
    dispatch (fun _ => StatResult.error) (fun _ => ReadResult.ok []) "/srv"
      (fun _ => {}) { method := "GET", pathname := "/api/x" }
      = { statusCode := 500, headers := [("Content-Type", "text/plain")],
          headersSent := true, chunks := [Chunk.str "Internal Server Error"],
          ended := true, errorLogs := 1 } := by decide

/-! ### Structural lemmas about the path machinery

These support the traversal-safety claim: after normalization of an
absolute path, the component list is free of empty, `.` and `..` entries,
so joining it under the root cannot escape the root. -/

theorem splitComps_ne_nil (l : List Char) : splitComps l ≠ [] := by
  induction l with
  | nil => simp [splitComps]
  | cons c rest ih =>
    by_cases hc : c = '/'
    · simp [splitComps, hc]
    · rcases h : splitComps rest with _ | ⟨h1, t1⟩
      · exact absurd h ih
      · simp [splitComps, hc, h]

theorem mem_splitComps_no_slash (l : List Char) :
    ∀ c ∈ splitComps l, '/' ∉ c := by
  induction l with
  | nil =>
    intro c hc
    simp [splitComps] at hc
    simp [hc]
  | cons a rest ih =>
    intro c hc
    by_cases ha : a = '/'
    · simp only [splitComps, ha, if_pos] at hc
      rcases List.mem_cons.mp hc with hc | hc
      · simp [hc]
      · exact ih c hc
    · rcases h : splitComps rest with _ | ⟨h1, t1⟩
      · exact absurd h (splitComps_ne_nil rest)
      · simp only [splitComps, ha, if_neg, h, ite_false] at hc
        rcases List.mem_cons.mp hc with hc | hc
        · subst hc
          intro hm
          rcases List.mem_cons.mp hm with hm | hm
          · exact ha hm.symm
          · exact ih h1 (by simp [h]) hm
        · exact ih c (by simp [h, hc])

theorem splitComps_append_slash (a t : List Char) (ha : '/' ∉ a) :
    splitComps (a ++ '/' :: t) = a :: splitComps t := by
  induction a with
  | nil => simp [splitComps]
  | cons x xs ih =>
    have hx : x ≠ '/' := by
      intro h
      exact ha (by simp [h])
    have ihx : splitComps (xs ++ '/' :: t) = xs :: splitComps t :=
      ih (fun h => ha (List.mem_cons_of_mem _ h))
    simp [List.cons_append, splitComps, hx, ihx]

theorem splitComps_no_slash (a : List Char) (ha : '/' ∉ a) :
    splitComps a = [a] := by
  induction a with
  | nil => simp [splitComps]
  | cons x xs ih =>
    have hx : x ≠ '/' := by
      intro h
      exact ha (by simp [h])
    have ihx := ih (fun h => ha (List.mem_cons_of_mem _ h))
    simp [splitComps, hx, ihx]

theorem splitComps_joinComps (L : List (List Char)) (hne : L ≠ [])
    (hsf : ∀ c ∈ L, '/' ∉ c) : splitComps (joinComps L) = L := by
  induction L with
  | nil => exact absurd rfl hne
  | cons c rest ih =>
    cases rest with
    | nil => simpa [joinComps] using splitComps_no_slash c (hsf c (by simp))
    | cons d t =>
      have h1 : splitComps (joinComps (d :: t)) = d :: t :=
        ih (by simp) (fun x hx => hsf x (List.mem_cons_of_mem _ hx))
      calc splitComps (joinComps (c :: d :: t))
          = splitComps (c ++ '/' :: joinComps (d :: t)) := by simp [joinComps]
        _ = c :: splitComps (joinComps (d :: t)) :=
            splitComps_append_slash _ _ (hsf c (by simp))
        _ = c :: d :: t := by rw [h1]

theorem splitComps_joinComps_append (L : List (List Char)) (t : List Char)
    (hne : L ≠ []) (hsf : ∀ c ∈ L, '/' ∉ c) :
    splitComps (joinComps L ++ '/' :: t) = L ++ splitComps t := by
  induction L with
  | nil => exact absurd rfl hne
  | cons c rest ih =>
    cases rest with
    | nil => simpa [joinComps] using splitComps_append_slash c t (hsf c (by simp))
    | cons d t2 =>
      have hc : '/' ∉ c := hsf c (by simp)
      have ih2 := ih (by simp) (fun x hx => hsf x (List.mem_cons_of_mem _ hx))
      have hassoc :
          joinComps (c :: d :: t2) ++ '/' :: t
            = c ++ '/' :: (joinComps (d :: t2) ++ '/' :: t) := by
        simp [joinComps, List.cons_append, List.append_assoc]
      rw [hassoc, splitComps_append_slash c _ hc, ih2]
      simp

theorem foldl_normStep_clean (cs : List (List Char)) :
    ∀ st, (∀ c ∈ cs, c ≠ [] ∧ c ≠ ['.'] ∧ c ≠ ['.', '.']) →
      List.foldl (normStep false) st cs = cs.reverse ++ st := by
  induction cs with
  | nil => intro st _; simp
  | cons c rest ih =>
    intro st h
    have hc := h c (by simp)
    have hstep : normStep false st c = c :: st := by
      simp [normStep, hc.1, hc.2.1, hc.2.2]
    rw [List.foldl_cons, hstep,
      ih (c :: st) (fun x hx => h x (List.mem_cons_of_mem _ hx))]
    simp

theorem cleanComp_foldl (cs : List (List Char)) :
    ∀ st, (∀ c ∈ cs, '/' ∉ c) → (∀ c ∈ st, cleanComp c) →
      ∀ c ∈ List.foldl (normStep false) st cs, cleanComp c := by
  induction cs with
  | nil =>
    intro st _ hst
    simpa using hst
  | cons c0 rest ih =>
    intro st hcs hst
    refine ih (normStep false st c0) (fun x hx => hcs x (List.mem_cons_of_mem _ hx)) ?_
    intro x hx
    unfold normStep at hx
    by_cases h1 : c0 = [] ∨ c0 = ['.']
    · rw [if_pos h1] at hx
      exact hst x hx
    · rw [if_neg h1] at hx
      by_cases h2 : c0 = ['.', '.']
      · rw [if_pos h2] at hx
        rcases hst' : st with _ | ⟨top, rest'⟩
        · subst hst'
          simp at hx
        · subst hst'
          have htop2 : top ≠ ['.', '.'] := (hst top (by simp)).2.2.1
          simp only [htop2, ite_false] at hx
          exact hst x (List.mem_cons_of_mem _ hx)
      · rw [if_neg h2] at hx
        rcases List.mem_cons.mp hx with rfl | hx
        · push_neg at h1
          exact ⟨h1.1, h1.2, h2, hcs x (by simp)⟩
        · exact hst x hx

theorem joinComps_ne_nil (L : List (List Char)) (hne : L ≠ [])
    (h : ∀ c ∈ L, c ≠ []) : joinComps L ≠ [] := by
  cases L with
  | nil => exact absurd rfl hne
  | cons c rest =>
    cases rest with
    | nil => simpa [joinComps] using h c (by simp)
    | cons d t => simp [joinComps]

theorem joinComps_append (A B : List (List Char)) (hA : A ≠ []) (hB : B ≠ []) :
    joinComps (A ++ B) = joinComps A ++ '/' :: joinComps B := by
  induction A with
  | nil => exact absurd rfl hA
  | cons c rest ih =>
    cases rest with
    | nil =>
      cases B with
      | nil => exact absurd rfl hB
      | cons b bs => simp [joinComps]
    | cons d t =>
      have ih2 := ih (by simp)
      calc joinComps ((c :: d :: t) ++ B)
          = c ++ '/' :: joinComps ((d :: t) ++ B) := by simp [joinComps]
        _ = c ++ '/' :: (joinComps (d :: t) ++ '/' :: joinComps B) := by rw [ih2]
        _ = (c ++ '/' :: joinComps (d :: t)) ++ '/' :: joinComps B := by
            simp [List.append_assoc]
        _ = joinComps (c :: d :: t) ++ '/' :: joinComps B := by simp [joinComps]

theorem joinComps_getLast_ne_slash (L : List (List Char)) (hne : L ≠ [])
    (h : ∀ c ∈ L, c ≠ [] ∧ '/' ∉ c) : (joinComps L).getLast? ≠ some '/' := by
  induction L with
  | nil => exact absurd rfl hne
  | cons c rest ih =>
    cases rest with
    | nil =>
      simp only [joinComps]
      intro hl
      rcases List.mem_getLast?_eq_getLast (l := c) (x := '/') hl with ⟨hc, hg⟩
      exact (h c (by simp)).2 (hg ▸ List.getLast_mem hc)
    | cons d t =>
      have hJ : joinComps (d :: t) ≠ [] :=
        joinComps_ne_nil _ (by simp) (fun x hx => (h x (List.mem_cons_of_mem _ hx)).1)
      have e1 : joinComps (c :: d :: t) = c ++ '/' :: joinComps (d :: t) := by
        simp [joinComps]
      rw [e1, List.getLast?_append_of_ne_nil _ (by simp)]
      have e2 : ('/' :: joinComps (d :: t)) = ['/'] ++ joinComps (d :: t) := rfl
      rw [e2, List.getLast?_append_of_ne_nil _ hJ]
      exact ih (by simp) (fun x hx => h x (List.mem_cons_of_mem _ hx))

theorem joinComps_cons_head (x : Char) (xs : List Char) (rest : List (List Char)) :
    ∃ tl, joinComps ((x :: xs) :: rest) = x :: tl := by
  cases rest with
  | nil => exact ⟨xs, rfl⟩
  | cons d t => exact ⟨xs ++ '/' :: joinComps (d :: t), rfl⟩

theorem normStep_nil_comp (b : Bool) (st : List (List Char)) :
    normStep b st [] = st := by
  simp [normStep]

theorem assembleNorm_abs_nil (trail : Bool) (comps : List (List Char))
    (h : joinComps comps = []) : assembleNorm true trail comps = ['/'] := by
  simp [assembleNorm, h]

theorem assembleNorm_abs (trail : Bool) (comps : List (List Char))
    (h : joinComps comps ≠ []) :
    assembleNorm true trail comps =
      '/' :: (if trail then joinComps comps ++ ['/'] else joinComps comps) := by
  simp [assembleNorm, h]

theorem normalizeChars_abs (t : List Char) :
    normalizeChars ('/' :: t) =
      assembleNorm true (('/' :: t).getLast? == some '/')
        ((List.foldl (normStep false) [] (splitComps t)).reverse) := by
  have h1 : splitComps ('/' :: t) = [] :: splitComps t := by
    simp [splitComps]
  simp only [normalizeChars, h1, List.foldl_cons, normStep_nil_comp]
  norm_num

theorem normalizeChars_root (rootComps : List (List Char)) (hne : rootComps ≠ [])
    (hc : ∀ c ∈ rootComps, cleanComp c) :
    normalizeChars ('/' :: joinComps rootComps) = '/' :: joinComps rootComps := by
  have hsf : ∀ c ∈ rootComps, '/' ∉ c := fun c h => (hc c h).2.2.2
  have hJ : joinComps rootComps ≠ [] :=
    joinComps_ne_nil _ hne (fun c h => (hc c h).1)
  have h1 : splitComps (joinComps rootComps) = rootComps :=
    splitComps_joinComps _ hne hsf
  have h2 : List.foldl (normStep false) [] rootComps = rootComps.reverse := by
    simpa using foldl_normStep_clean rootComps []
      (fun c h => ⟨(hc c h).1, (hc c h).2.1, (hc c h).2.2.1⟩)
  have h3 : (('/' :: joinComps rootComps).getLast? == some '/') = false := by
    have e2 : ('/' :: joinComps rootComps) = ['/'] ++ joinComps rootComps := rfl
    rw [e2, List.getLast?_append_of_ne_nil _ hJ]
    exact beq_eq_false_iff_ne.mpr (joinComps_getLast_ne_slash _ hne
      (fun c h => ⟨(hc c h).1, (hc c h).2.2.2⟩))
  rw [normalizeChars_abs, h1, h2, List.reverse_reverse, h3,
    assembleNorm_abs false _ hJ]
  simp

theorem stripLeadingSlashes_cons (x : Char) (xs : List Char) (hx : x ≠ '/') :
    stripLeadingSlashes ⟨'/' :: x :: xs⟩ = ⟨x :: xs⟩ := by
  unfold stripLeadingSlashes
  have hxb : (x == '/') = false := beq_eq_false_iff_ne.mpr hx
  simp [List.dropWhile, hxb]

/-- Joining a clean non-empty relative component body (no trailing
separator) under a well-formed absolute root yields the root extended by
exactly those components. -/
theorem pjoin_root_body_notrail (root : String) (rootComps : List (List Char))
    (hroot : root.data = '/' :: joinComps rootComps) (hrne : rootComps ≠ [])
    (hrc : ∀ c ∈ rootComps, cleanComp c)
    (C : List (List Char)) (hCne : C ≠ []) (hCclean : ∀ c ∈ C, cleanComp c) :
    (pjoin root ⟨joinComps C⟩).data = root.data ++ '/' :: joinComps C := by
  have hrsf : ∀ c ∈ rootComps, '/' ∉ c := fun c h => (hrc c h).2.2.2
  have hrnn : ∀ c ∈ rootComps, c ≠ [] := fun c h => (hrc c h).1
  have hCsf : ∀ c ∈ C, '/' ∉ c := fun c h => (hCclean c h).2.2.2
  have hCnn : ∀ c ∈ C, c ≠ [] := fun c h => (hCclean c h).1
  have hJr : joinComps rootComps ≠ [] := joinComps_ne_nil _ hrne hrnn
  have hJC : joinComps C ≠ [] := joinComps_ne_nil _ hCne hCnn
  have hrd : root.data ≠ [] := by rw [hroot]; simp
  have hpj : pjoin root ⟨joinComps C⟩
      = ⟨normalizeChars (root.data ++ '/' :: joinComps C)⟩ := by
    unfold pjoin
    rw [if_neg hrd, if_neg hJC]
  have hdata : root.data ++ '/' :: joinComps C
      = '/' :: (joinComps rootComps ++ '/' :: joinComps C) := by
    rw [hroot]; rfl
  have hsplit : splitComps (joinComps rootComps ++ '/' :: joinComps C)
      = rootComps ++ C := by
    rw [splitComps_joinComps_append _ _ hrne hrsf, splitComps_joinComps _ hCne hCsf]
  have hall : ∀ c ∈ rootComps ++ C, c ≠ [] ∧ c ≠ ['.'] ∧ c ≠ ['.', '.'] := by
    intro c hc
    rcases List.mem_append.mp hc with hc | hc
    · exact ⟨(hrc c hc).1, (hrc c hc).2.1, (hrc c hc).2.2.1⟩
    · exact ⟨(hCclean c hc).1, (hCclean c hc).2.1, (hCclean c hc).2.2.1⟩
  have hfold : List.foldl (normStep false) [] (rootComps ++ C)
      = (rootComps ++ C).reverse := by
    simpa using foldl_normStep_clean (rootComps ++ C) [] hall
  have hlast : (('/' :: (joinComps rootComps ++ '/' :: joinComps C)).getLast?
      == some '/') = false := by
    have e1 : ('/' :: (joinComps rootComps ++ '/' :: joinComps C))
        = ['/'] ++ (joinComps rootComps ++ '/' :: joinComps C) := rfl
    rw [e1, List.getLast?_append_of_ne_nil _ (by simp),
      List.getLast?_append_of_ne_nil _ (by simp)]
    have e2 : ('/' :: joinComps C) = ['/'] ++ joinComps C := rfl
    rw [e2, List.getLast?_append_of_ne_nil _ hJC]
    exact beq_eq_false_iff_ne.mpr (joinComps_getLast_ne_slash _ hCne
      (fun c h => ⟨(hCclean c h).1, (hCclean c h).2.2.2⟩))
  have hJall : joinComps (rootComps ++ C) ≠ [] :=
    joinComps_ne_nil _ (by simp [hrne]) (by
      intro c hc
      rcases List.mem_append.mp hc with hc | hc
      · exact hrnn c hc
      · exact hCnn c hc)
  rw [hpj, hdata, normalizeChars_abs, hsplit, hfold, List.reverse_reverse, hlast,
    assembleNorm_abs false _ hJall]
  show '/' :: (if false = true then _ else joinComps (rootComps ++ C))
      = '/' :: (joinComps rootComps ++ '/' :: joinComps C)
  rw [if_neg (by simp), joinComps_append _ _ hrne hCne]

/-- Same as `pjoin_root_body_notrail` with a trailing separator kept by
normalization. -/
theorem pjoin_root_body_trail (root : String) (rootComps : List (List Char))
    (hroot : root.data = '/' :: joinComps rootComps) (hrne : rootComps ≠ [])
    (hrc : ∀ c ∈ rootComps, cleanComp c)
    (C : List (List Char)) (hCne : C ≠ []) (hCclean : ∀ c ∈ C, cleanComp c) :
    (pjoin root ⟨joinComps C ++ ['/']⟩).data
      = root.data ++ '/' :: (joinComps C ++ ['/']) := by
  have hrsf : ∀ c ∈ rootComps, '/' ∉ c := fun c h => (hrc c h).2.2.2
  have hrnn : ∀ c ∈ rootComps, c ≠ [] := fun c h => (hrc c h).1
  have hCsf : ∀ c ∈ C, '/' ∉ c := fun c h => (hCclean c h).2.2.2
  have hCnn : ∀ c ∈ C, c ≠ [] := fun c h => (hCclean c h).1
  have hJC : joinComps C ≠ [] := joinComps_ne_nil _ hCne hCnn
  have hrd : root.data ≠ [] := by rw [hroot]; simp
  have hpj : pjoin root ⟨joinComps C ++ ['/']⟩
      = ⟨normalizeChars (root.data ++ '/' :: (joinComps C ++ ['/']))⟩ := by
    unfold pjoin
    rw [if_neg hrd, if_neg (by simp)]
  have hdata : root.data ++ '/' :: (joinComps C ++ ['/'])
      = '/' :: (joinComps rootComps ++ '/' :: (joinComps C ++ ['/'])) := by
    rw [hroot]; rfl
  have hsplit : splitComps (joinComps rootComps ++ '/' :: (joinComps C ++ ['/']))
      = rootComps ++ (C ++ [[]]) := by
    have e1 : joinComps C ++ ['/'] = joinComps C ++ '/' :: ([] : List Char) := rfl
    rw [splitComps_joinComps_append _ _ hrne hrsf, e1,
      splitComps_joinComps_append _ _ hCne hCsf]
    rfl
  have hall : ∀ c ∈ rootComps ++ C, c ≠ [] ∧ c ≠ ['.'] ∧ c ≠ ['.', '.'] := by
    intro c hc
    rcases List.mem_append.mp hc with hc | hc
    · exact ⟨(hrc c hc).1, (hrc c hc).2.1, (hrc c hc).2.2.1⟩
    · exact ⟨(hCclean c hc).1, (hCclean c hc).2.1, (hCclean c hc).2.2.1⟩
  have hfold : List.foldl (normStep false) [] (rootComps ++ (C ++ [[]]))
      = (rootComps ++ C).reverse := by
    rw [← List.append_assoc, List.foldl_append]
    simp only [List.foldl_cons, List.foldl_nil, normStep_nil_comp]
    simpa using foldl_normStep_clean (rootComps ++ C) [] hall
  have hlast : (('/' :: (joinComps rootComps ++ '/' :: (joinComps C ++ ['/']))).getLast?
      == some '/') = true := by
    have e1 : ('/' :: (joinComps rootComps ++ '/' :: (joinComps C ++ ['/'])))
        = ['/'] ++ (joinComps rootComps ++ '/' :: (joinComps C ++ ['/'])) := rfl
    rw [e1, List.getLast?_append_of_ne_nil _ (by simp),
      List.getLast?_append_of_ne_nil _ (by simp)]
    have e2 : ('/' :: (joinComps C ++ ['/'])) = ('/' :: joinComps C) ++ ['/'] := by
      simp
    rw [e2, List.getLast?_append_of_ne_nil _ (by simp)]
    rfl
  have hJall : joinComps (rootComps ++ C) ≠ [] :=
    joinComps_ne_nil _ (by simp [hrne]) (by
      intro c hc
      rcases List.mem_append.mp hc with hc | hc
      · exact hrnn c hc
      · exact hCnn c hc)
  rw [hpj, hdata, normalizeChars_abs, hsplit, hfold, List.reverse_reverse, hlast,
    assembleNorm_abs true _ hJall]
  show '/' :: (if true = true then joinComps (rootComps ++ C) ++ ['/'] else _)
      = '/' :: (joinComps rootComps ++ '/' :: (joinComps C ++ ['/']))
  rw [if_pos rfl, joinComps_append _ _ hrne hCne]
  simp

theorem safeJoin_eq (fs : Fs) (root pathname : String) (q : String)
    (h : safeJoin fs root pathname = some q) :
    q = candidatePath root pathname ∧
      fs (candidatePath root pathname) = StatResult.file := by
  unfold safeJoin at h
  cases hfs : fs (candidatePath root pathname) with
  | file =>
    rw [hfs] at h
    simp only [Option.some.injEq] at h
    exact ⟨h.symm, rfl⟩
  | dir => rw [hfs] at h; cases h
  | error => rw [hfs] at h; cases h

/-- Core traversal-safety property of `safeJoin`: for any URL path
beginning with a separator, over a root that is a well-formed absolute
directory path, a successful result is always strictly inside the root. -/
theorem safeJoin_within_root (fs : Fs) (root : String) (rootComps : List (List Char))
    (hroot : root.data = '/' :: joinComps rootComps) (hrne : rootComps ≠ [])
    (hrc : ∀ c ∈ rootComps, cleanComp c) (hdir : fs root = StatResult.dir)
    (p : String) (t : List Char) (hp : p.data = '/' :: t)
    (q : String) (h : safeJoin fs root p = some q) :
    isDescendantOf q root := by
  obtain ⟨hq, hfile⟩ := safeJoin_eq fs root p q h
  have hnormp : normalize p
      = ⟨assembleNorm true (('/' :: t).getLast? == some '/')
          ((List.foldl (normStep false) [] (splitComps t)).reverse)⟩ := by
    unfold normalize
    rw [hp, normalizeChars_abs]
  rcases hC : (List.foldl (normStep false) [] (splitComps t)).reverse with _ | ⟨c0, C'⟩
  · -- the path normalized to the bare root, which is a directory: no match,
    -- contradicting the successful result
    exfalso
    rw [hC] at hnormp
    have hnorm2 : normalize p = ⟨['/']⟩ := by
      rw [hnormp]
      exact congrArg String.mk (assembleNorm_abs_nil _ _ rfl)
    have hnr : normalize root = root := by
      unfold normalize
      rw [hroot, normalizeChars_root rootComps hrne hrc, ← hroot]
    have hcand : candidatePath root p = root := by
      unfold candidatePath
      rw [hnorm2]
      have hstrip : stripLeadingSlashes ⟨['/']⟩ = ⟨[]⟩ := by decide
      rw [hstrip]
      unfold pjoin
      rw [if_neg (by rw [hroot]; simp), if_pos rfl]
      exact hnr
    rw [hcand, hdir] at hfile
    cases hfile
  · -- the normalized path has at least one clean component under the root
    have hCclean : ∀ c ∈ c0 :: C', cleanComp c := by
      rw [← hC]
      intro c hc
      exact cleanComp_foldl (splitComps t) [] (mem_splitComps_no_slash t) (by simp)
        c (List.mem_reverse.mp hc)
    rw [hC] at hnormp
    rcases hc0 : c0 with _ | ⟨x, xs⟩
    · exact absurd hc0 (hCclean c0 (by simp)).1
    · subst hc0
      have hx : x ≠ '/' := by
        intro hxe
        exact (hCclean (x :: xs) (List.mem_cons_self _ _)).2.2.2
          (by rw [hxe]; exact List.mem_cons_self _ _)
      obtain ⟨tl, htl⟩ := joinComps_cons_head x xs C'
      have hCne : ((x :: xs) :: C' : List (List Char)) ≠ [] := by simp
      cases htr : (('/' :: t).getLast? == some '/') with
      | false =>
        rw [htr] at hnormp
        have hnorm2 : normalize p = ⟨'/' :: joinComps ((x :: xs) :: C')⟩ := by
          rw [hnormp]
          congr 1
          rw [assembleNorm_abs false _ (by rw [htl]; simp), if_neg (by simp)]
        have hstrip : stripLeadingSlashes (normalize p)
            = ⟨joinComps ((x :: xs) :: C')⟩ := by
          rw [hnorm2, htl]
          exact stripLeadingSlashes_cons x tl hx
        have hcd : (candidatePath root p).data
            = root.data ++ '/' :: joinComps ((x :: xs) :: C') := by
          unfold candidatePath
          rw [hstrip]
          exact pjoin_root_body_notrail root rootComps hroot hrne hrc _ hCne hCclean
        exact ⟨(x :: xs) :: C', hCne, hCclean, Or.inl (by rw [hq]; exact hcd)⟩
      | true =>
        rw [htr] at hnormp
        have hnorm2 : normalize p
            = ⟨'/' :: (joinComps ((x :: xs) :: C') ++ ['/'])⟩ := by
          rw [hnormp]
          congr 1
          rw [assembleNorm_abs true _ (by rw [htl]; simp), if_pos rfl]
        have hstrip : stripLeadingSlashes (normalize p)
            = ⟨joinComps ((x :: xs) :: C') ++ ['/']⟩ := by
          rw [hnorm2, htl]
          exact stripLeadingSlashes_cons x (tl ++ ['/']) hx
        have hcd : (candidatePath root p).data
            = root.data ++ '/' :: (joinComps ((x :: xs) :: C') ++ ['/']) := by
          unfold candidatePath
          rw [hstrip]
          exact pjoin_root_body_trail root rootComps hroot hrne hrc _ hCne hCclean
        exact ⟨(x :: xs) :: C', hCne, hCclean, Or.inr (by rw [hq]; exact hcd)⟩

/-- The outcome of the dispatcher for a request whose path does not
resolve to a static asset: the delegation step fails (the undefined
`handler` binding), the error is caught, and `handleError` produces the
single 500 response with exactly one log entry. -/
theorem dispatch_delegated (fs : Fs) (rd : ReadFs) (root : String) (hf : HandlerFn)
    (req : Req) (hmiss : resolveStatic fs root req.pathname = none) :
    dispatch fs rd root hf req
      = { statusCode := 500, headers := [("Content-Type", "text/plain")],
          headersSent := true, chunks := [Chunk.str "Internal Server Error"],
          ended := true, errorLogs := 1 } := by
  unfold dispatch
  rw [hmiss]
  rfl

/-! ### Claim theorems -/

/-- C1: for every URL path beginning with `/`, if `resolveStatic` returns
a file path, that path is a descendant of the asset root: no input path,
including traversal paths such as `/assets/../../etc/passwd`, can make it
resolve outside the root.  The hypotheses on `root` state what holds of
`clientDir = resolve('dist/client')` by construction: an absolute,
separator-normal path naming a directory. -/
theorem c1_resolve_within_root (fs : Fs) (root : String)
    (rootComps : List (List Char))
    (hroot : root.data = '/' :: joinComps rootComps) (hrne : rootComps ≠ [])
    (hrc : ∀ c ∈ rootComps, cleanComp c) (hdir : fs root = StatResult.dir)
    (p : String) (t : List Char) (hp : p.data = '/' :: t)
    (q : String) (h : resolveStatic fs root p = some q) :
    isDescendantOf q root := by
  have hsj : safeJoin fs root p = some q := by
    unfold resolveStatic at h
    split at h
    · exact h
    · split at h
      · exact h
      · cases h
  exact safeJoin_within_root fs root rootComps hroot hrne hrc hdir p t hp q hsj

theorem c1_resolve_within_root_witness :
    resolveStatic
        (fun s => if s = "/srv/etc/passwd" then StatResult.file else StatResult.dir)
        "/srv" "/assets/../../etc/passwd" = some "/srv/etc/passwd" ∧
    isDescendantOf "/srv/etc/passwd" "/srv" :=
  ⟨by decide,
   c1_resolve_within_root
     (fun s => if s = "/srv/etc/passwd" then StatResult.file else StatResult.dir)
     "/srv" [['s', 'r', 'v']] (by decide) (by decide) (by decide) (by decide)
     "/assets/../../etc/passwd" ("assets/../../etc/passwd".data) (by decide)
     "/srv/etc/passwd" (by decide)⟩

/-- C5: a path that does not start with `/assets/` and whose remainder
after stripping the leading slash does not exactly match an allow-list
entry yields no match. -/
theorem c5_reject_unlisted (fs : Fs) (root p : String)
    (h1 : jsStartsWith p "/assets/" = false)
    (h2 : stripOneSlash p ∉ staticFiles) :
    resolveStatic fs root p = none := by
  unfold resolveStatic
  rw [h1]
  simp [h2]

theorem c5_reject_unlisted_witness :
    jsStartsWith "/api/anything" "/assets/" = false ∧
    stripOneSlash "/api/anything" ∉ staticFiles ∧
    resolveStatic (fun _ => StatResult.file) "/srv" "/api/anything" = none :=
  ⟨by decide, by decide,
   c5_reject_unlisted (fun _ => StatResult.file) "/srv" "/api/anything"
     (by decide) (by decide)⟩

/-- C6: whenever the filesystem metadata of the candidate path is not a
regular file — a directory, or a thrown stat error covering missing paths
and permission failures — `resolveStatic` returns no match; as a total
function of the abstract filesystem it can never raise to its caller. -/
theorem c6_stat_failure_no_match (fs : Fs) (root p : String)
    (h : fs (candidatePath root p) ≠ StatResult.file) :
    resolveStatic fs root p = none := by
  have hsj : safeJoin fs root p = none := by
    unfold safeJoin
    cases hfs : fs (candidatePath root p) with
    | file => exact absurd hfs h
    | dir => rfl
    | error => rfl
  unfold resolveStatic
  split
  · exact hsj
  · split
    · exact hsj
    · rfl

theorem c6_stat_failure_no_match_witness :
    (fun _ => StatResult.error : Fs) (candidatePath "/srv" "/assets/app.js")
        ≠ StatResult.file ∧
    resolveStatic (fun _ => StatResult.error) "/srv" "/assets/app.js" = none :=
  ⟨by decide,
   c6_stat_failure_no_match (fun _ => StatResult.error) "/srv" "/assets/app.js"
     (by decide)⟩

/-- C9: `resolveStatic` is a pure function of the path and of the
filesystem state, so calling it twice with the same path against an
unchanged filesystem yields the same result both times. -/
theorem c9_resolve_idempotent (fs : Fs) (root p : String) :
    resolveStatic fs root p = resolveStatic fs root p := rfl

/-- C10: a traversal path under the `/assets/` prefix can serve a regular
file directly under the root that lies outside the assets subdirectory
and whose bare name is not on the allow-list. -/
theorem c10_assets_traversal_bypasses_allowlist :
    resolveStatic
        (fun s => if s = "/srv/index.html" then StatResult.file else StatResult.dir)
        "/srv" "/assets/../index.html" = some "/srv/index.html" ∧
    (fun s => if s = "/srv/index.html" then StatResult.file else StatResult.dir :
        Fs) "/srv/index.html" = StatResult.file ∧
    "index.html" ∉ staticFiles ∧
    jsStartsWith "/srv/index.html" "/srv/assets/" = false :=
  ⟨by decide, by decide, by decide, by decide⟩

/-- C3: for every request whose path does not resolve to a static asset,
the dispatcher produces the 500 internal-error response and never invokes
the configured external handler: the outcome is independent of the
handler argument, because the delegation line evaluates the undefined
binding `handler` (a ReferenceError) rather than the bound
`handlerFetch`. -/
theorem c3_delegation_never_calls_handler (fs : Fs) (rd : ReadFs) (root : String)
    (hf : HandlerFn) (req : Req)
    (hmiss : resolveStatic fs root req.pathname = none) :
    dispatch fs rd root hf req
      = { statusCode := 500, headers := [("Content-Type", "text/plain")],
          headersSent := true, chunks := [Chunk.str "Internal Server Error"],
          ended := true, errorLogs := 1 } ∧
    ∀ hf' : HandlerFn, dispatch fs rd root hf' req = dispatch fs rd root hf req := by
  refine ⟨dispatch_delegated fs rd root hf req hmiss, ?_⟩
  intro hf'
  rw [dispatch_delegated fs rd root hf' req hmiss,
    dispatch_delegated fs rd root hf req hmiss]

theorem c3_delegation_never_calls_handler_witness :
    resolveStatic (fun _ => StatResult.error) "/srv" "/api/x" = none ∧
    dispatch (fun _ => StatResult.error) (fun _ => ReadResult.ok []) "/srv"
        (fun _ => { status := 234 }) { method := "GET", pathname := "/api/x" }
      = { statusCode := 500, headers := [("Content-Type", "text/plain")],
          headersSent := true, chunks := [Chunk.str "Internal Server Error"],
          ended := true, errorLogs := 1 } :=
  ⟨by decide,
   (c3_delegation_never_calls_handler (fun _ => StatResult.error)
     (fun _ => ReadResult.ok []) "/srv" (fun _ => { status := 234 })
     { method := "GET", pathname := "/api/x" } (by decide)).1⟩

/-- C2, evaluated at a failing input: a GET request for a non-static path
with a handler configured to answer status 234 still yields the 500
internal-error response — the delegation step fails on the undefined
`handler` binding, so the configured handler is never invoked and its
status, headers and body are never copied to the response. -/
theorem c2_handler_response_never_forwarded :
    dispatch (fun _ => StatResult.error) (fun _ => ReadResult.ok []) "/srv"
        (fun _ => { status := 234, rheaders := [("X-Custom", "yes")],
                    rbody := some [1, 2] })
        { method := "GET", pathname := "/api/anything" }
      = { statusCode := 500, headers := [("Content-Type", "text/plain")],
          headersSent := true, chunks := [Chunk.str "Internal Server Error"],
          ended := true, errorLogs := 1 } := by decide

/-- C7: each request on the delegation path — where the handler call step
throws — yields exactly one response, with status 500 and the fixed body,
and exactly one error log entry. -/
theorem c7_failure_single_response (fs : Fs) (rd : ReadFs) (root : String)
    (hf : HandlerFn) (req : Req)
    (hmiss : resolveStatic fs root req.pathname = none) :
    (dispatch fs rd root hf req).statusCode = 500 ∧
    (dispatch fs rd root hf req).chunks = [Chunk.str "Internal Server Error"] ∧
    (dispatch fs rd root hf req).ended = true ∧
    (dispatch fs rd root hf req).errorLogs = 1 := by
  rw [dispatch_delegated fs rd root hf req hmiss]
  exact ⟨rfl, rfl, rfl, rfl⟩

theorem c7_failure_single_response_witness :
    resolveStatic (fun _ => StatResult.dir) "/srv" "/api/y" = none ∧
    ((dispatch (fun _ => StatResult.dir) (fun _ => ReadResult.ok []) "/srv"
        (fun _ => {}) { method := "POST", pathname := "/api/y" }).statusCode = 500 ∧
     (dispatch (fun _ => StatResult.dir) (fun _ => ReadResult.ok []) "/srv"
        (fun _ => {}) { method := "POST", pathname := "/api/y" }).chunks
        = [Chunk.str "Internal Server Error"] ∧
     (dispatch (fun _ => StatResult.dir) (fun _ => ReadResult.ok []) "/srv"
        (fun _ => {}) { method := "POST", pathname := "/api/y" }).ended = true ∧
     (dispatch (fun _ => StatResult.dir) (fun _ => ReadResult.ok []) "/srv"
        (fun _ => {}) { method := "POST", pathname := "/api/y" }).errorLogs = 1) :=
  ⟨by decide,
   c7_failure_single_response (fun _ => StatResult.dir) (fun _ => ReadResult.ok [])
     "/srv" (fun _ => {}) { method := "POST", pathname := "/api/y" } (by decide)⟩

/-- C4: a request resolved to an existing regular file that streams
successfully is answered with status 200, the content type from a
case-sensitive `mimeMap` lookup of the extension (binary fallback), the
immutable cache header, and a body byte-identical to the file contents. -/
theorem c4_static_hit (fs : Fs) (rd : ReadFs) (root : String) (hf : HandlerFn)
    (req : Req) (path : String) (bs : List Nat)
    (hres : resolveStatic fs root req.pathname = some path)
    (hread : rd path = ReadResult.ok bs) :
    (dispatch fs rd root hf req).statusCode = 200 ∧
    (dispatch fs rd root hf req).headers =
      [("Content-Type",
        (mimeMap.lookup (extname path)).getD "application/octet-stream"),
       ("Cache-Control", "public, max-age=31536000, immutable")] ∧
    (dispatch fs rd root hf req).chunks = [Chunk.bytes bs] ∧
    (dispatch fs rd root hf req).ended = true ∧
    (dispatch fs rd root hf req).errorLogs = 0 := by
  have hd : dispatch fs rd root hf req
      = streamFile rd path
          { statusCode := 200,
            headers := setHeader (setHeader [] "Content-Type"
                ((mimeMap.lookup (extname path)).getD "application/octet-stream"))
              "Cache-Control" "public, max-age=31536000, immutable" } := by
    unfold dispatch
    rw [hres]
  rw [hd]
  unfold streamFile
  rw [hread]
  exact ⟨rfl, rfl, rfl, rfl, rfl⟩

theorem c4_static_hit_witness :
    (dispatch (fun s => if s = "/srv/assets/app.js" then StatResult.file
                        else StatResult.dir)
        (fun _ => ReadResult.ok [104, 105]) "/srv" (fun _ => {})
        { method := "GET", pathname := "/assets/app.js" }).statusCode = 200 ∧
    (dispatch (fun s => if s = "/srv/assets/app.js" then StatResult.file
                        else StatResult.dir)
        (fun _ => ReadResult.ok [104, 105]) "/srv" (fun _ => {})
        { method := "GET", pathname := "/assets/app.js" }).headers
      = [("Content-Type", "application/javascript"),
         ("Cache-Control", "public, max-age=31536000, immutable")] ∧
    (dispatch (fun s => if s = "/srv/assets/app.js" then StatResult.file
                        else StatResult.dir)
        (fun _ => ReadResult.ok [104, 105]) "/srv" (fun _ => {})
        { method := "GET", pathname := "/assets/app.js" }).chunks
      = [Chunk.bytes [104, 105]] := by
  have h := c4_static_hit
    (fun s => if s = "/srv/assets/app.js" then StatResult.file else StatResult.dir)
    (fun _ => ReadResult.ok [104, 105]) "/srv" (fun _ => {})
    { method := "GET", pathname := "/assets/app.js" } "/srv/assets/app.js"
    [104, 105] (by decide) (by decide)
  refine ⟨h.1, ?_, h.2.2.1⟩
  rw [h.2.1]
  decide

/-- C8, amended: on a mid-stream failure (headers already flushed), the
dispatcher leaves the status code and headers untouched, but it does
write the fixed error text as a final chunk of the already-started body
before terminating it (the unconditional `res.end('Internal Server
Error')` of `handleError`). -/
theorem c8_midstream_keeps_status (fs : Fs) (rd : ReadFs) (root : String)
    (hf : HandlerFn) (req : Req) (path : String) (sent : List Nat)
    (hres : resolveStatic fs root req.pathname = some path)
    (hread : rd path = ReadResult.failAfter sent) (hsent : sent ≠ []) :
    (dispatch fs rd root hf req).statusCode = 200 ∧
    (dispatch fs rd root hf req).headers =
      [("Content-Type",
        (mimeMap.lookup (extname path)).getD "application/octet-stream"),
       ("Cache-Control", "public, max-age=31536000, immutable")] ∧
    (dispatch fs rd root hf req).chunks
      = [Chunk.bytes sent, Chunk.str "Internal Server Error"] ∧
    (dispatch fs rd root hf req).ended = true := by
  have hd : dispatch fs rd root hf req
      = streamFile rd path
          { statusCode := 200,
            headers := setHeader (setHeader [] "Content-Type"
                ((mimeMap.lookup (extname path)).getD "application/octet-stream"))
              "Cache-Control" "public, max-age=31536000, immutable" } := by
    unfold dispatch
    rw [hres]
  rw [hd]
  simp only [streamFile, hread]
  rw [if_neg hsent]
  exact ⟨rfl, rfl, rfl, rfl⟩

theorem c8_midstream_keeps_status_witness :
    resolveStatic (fun s => if s = "/srv/assets/app.js" then StatResult.file
        else StatResult.dir) "/srv" "/assets/app.js" = some "/srv/assets/app.js" ∧
    ((dispatch (fun s => if s = "/srv/assets/app.js" then StatResult.file
          else StatResult.dir)
        (fun _ => ReadResult.failAfter [7, 8]) "/srv" (fun _ => {})
        { method := "GET", pathname := "/assets/app.js" }).statusCode = 200 ∧
     (dispatch (fun s => if s = "/srv/assets/app.js" then StatResult.file
          else StatResult.dir)
        (fun _ => ReadResult.failAfter [7, 8]) "/srv" (fun _ => {})
        { method := "GET", pathname := "/assets/app.js" }).chunks
       = [Chunk.bytes [7, 8], Chunk.str "Internal Server Error"]) := by
  have h := c8_midstream_keeps_status
    (fun s => if s = "/srv/assets/app.js" then StatResult.file else StatResult.dir)
    (fun _ => ReadResult.failAfter [7, 8]) "/srv" (fun _ => {})
    { method := "GET", pathname := "/assets/app.js" } "/srv/assets/app.js"
    [7, 8] (by decide) (by decide) (by decide)
  exact ⟨by decide, h.1, h.2.2.1⟩

/-- C8, counterexample to the claim as stated: at a concrete mid-stream
failure the dispatcher does write the fixed error text into the
already-started body, as the final chunk after the bytes that were
already sent. -/
theorem c8_writes_error_text_midstream :
    (dispatch (fun s => if s = "/srv/assets/style.css" then StatResult.file
          else StatResult.dir)
        (fun _ => ReadResult.failAfter [1]) "/srv" (fun _ => {})
        { method := "GET", pathname := "/assets/style.css" }).chunks
      = [Chunk.bytes [1], Chunk.str "Internal Server Error"] := by decide

end TokenView
